import Mathlib

/-!
Shallow embedding of `src/Image_Encryption.py`.

The core of the repository is the function `transform_image`, which decodes an
image into an RGB pixel buffer, XORs every channel with `key % 256` (Stage 1),
and then, row by row, swaps the pixel at column `x` with the pixel at the
mirrored column `width - 1 - x` for every `x in [0, width // 2)` satisfying
`(x + y + key) % 2 == 0` (Stage 2).

We model the decoded buffer as a list of rows, each row a list of RGB triples
of natural numbers.  The width is passed explicitly (in the source it comes
from `img.size`); well-formedness `WF w rows` says every row has length `w`.
The imperative in-place loops become a `List.map` (Stage 1) and a left fold of
swap steps over `List.range (w / 2)` (Stage 2), exactly mirroring the source's
traversal order.  The GUI collaborator's key-string check and output-path
derivation are embedded over `List Char`, following the Python semantics of
`str.lstrip`, `str.isdigit`, `int()` and `os.path.splitext`.
-/

namespace ImageEncryption

/-- An RGB pixel: a triple of channel values. -/
abbrev Pixel := Nat × Nat × Nat

/-- Stage 1 on one pixel: `r ^= key; g ^= key; b ^= key`
(lines 29-35 of the source). -/
def pxXor (key : Nat) (p : Pixel) : Pixel :=
  (p.1 ^^^ key, p.2.1 ^^^ key, p.2.2 ^^^ key)

/-- `key = key % 256` (line 24).  Python's `%` with a positive modulus is
Euclidean remainder, hence `Int.emod` followed by `toNat`. -/
def keyByte (k : Int) : Nat := (k % 256).toNat

/-- Stage 1: XOR every channel of every pixel with the key byte
(lines 27-35). -/
def stage1 (key : Nat) (rows : List (List Pixel)) : List (List Pixel) :=
  rows.map (fun row => row.map (pxXor key))

/-- Placeholder pixel for out-of-range reads; under `WF` every read performed
by the transform is in range, so it never surfaces. -/
def defaultPixel : Pixel := (0, 0, 0)

/-- One iteration of the Stage 2 inner loop at column `x` of row `y`
(lines 40-44): if `(x + y + key) % 2 == 0`, exchange the pixels at columns
`x` and `width - 1 - x`. -/
def swapStep (w y key : Nat) (row : List Pixel) (x : Nat) : List Pixel :=
  if (x + y + key) % 2 = 0 then
    (row.set x (row.getD (w - 1 - x) defaultPixel)).set (w - 1 - x)
      (row.getD x defaultPixel)
  else row

/-- Stage 2 on one row: the loop `for x in range(width // 2)` (line 39). -/
def stage2Row (w y key : Nat) (row : List Pixel) : List Pixel :=
  (List.range (w / 2)).foldl (swapStep w y key) row

/-- Stage 2 over the rows, threading the row index `y` (line 38); `y0` is the
index of the first row of `rows` in the whole image. -/
def stage2Rows (w key : Nat) : Nat → List (List Pixel) → List (List Pixel)
  | _, [] => []
  | y, row :: rest => stage2Row w y key row :: stage2Rows w key (y + 1) rest

/-- The buffer-level content of `transform_image` (lines 10-46): reduce the
key to a byte, run Stage 1, then Stage 2. -/
def transform_image (w : Nat) (k : Int) (rows : List (List Pixel)) :
    List (List Pixel) :=
  stage2Rows w (keyByte k) 0 (stage1 (keyByte k) rows)

/-- A well-formed buffer of width `w`: every row has length `w`. -/
def WF (w : Nat) (rows : List (List Pixel)) : Prop :=
  ∀ row ∈ rows, row.length = w

instance (w : Nat) (rows : List (List Pixel)) : Decidable (WF w rows) := by
  unfold WF; infer_instance

/-- Read the pixel at column `x` of row `y`, i.e. the source's `pixels[x, y]`. -/
def getPx (rows : List (List Pixel)) (x y : Nat) : Option Pixel :=
  (rows[y]?).bind (fun row => row[x]?)

/-- Where Stage 2 sends/reads column `i` of row `y`: the column is mirrored
exactly when the loop index `min i (w - 1 - i)` lies in `[0, w / 2)` and the
parity test `(x + y + key) % 2 == 0` holds for it; otherwise it stays put.
This function depends only on the geometry and the key, never on pixel data. -/
def swapTarget (w key y i : Nat) : Nat :=
  if min i (w - 1 - i) < w / 2 ∧ (min i (w - 1 - i) + y + key) % 2 = 0 then
    w - 1 - i
  else i

/-- All three channels of a pixel fit in a byte. -/
def InRange (p : Pixel) : Prop := p.1 < 256 ∧ p.2.1 < 256 ∧ p.2.2 < 256

instance (p : Pixel) : Decidable (InRange p) := by
  unfold InRange; infer_instance

/-! ### The collaborator's key validation (lines 156-177)

`validate_inputs` checks `key_str.lstrip("-").isdigit()` and, when the check
passes, runs `int(key_str)`.  We embed the three Python primitives over
`List Char` (ASCII): `lstrip("-")` removes every leading dash, `isdigit` is
true on nonempty all-digit strings, and `int` accepts an optional single
leading sign followed by at least one digit. -/

/-- Python `s.lstrip("-")`: drop every leading `'-'`. -/
def lstripMinus (s : List Char) : List Char := s.dropWhile (fun c => c == '-')

/-- Python `s.isdigit()` on ASCII strings: nonempty and all decimal digits. -/
def pyIsdigit (s : List Char) : Bool := !s.isEmpty && s.all Char.isDigit

/-- The validation's digit check: `key_str.lstrip("-").isdigit()` (line 172). -/
def keyCheckPasses (s : List Char) : Bool := pyIsdigit (lstripMinus s)

/-- Decimal value of a digit string. -/
def digitsToNat (s : List Char) : Nat :=
  s.foldl (fun acc c => 10 * acc + (c.toNat - '0'.toNat)) 0

/-- Python `int(s)` on an already-stripped string (line 176): an optional
single `'+'`/`'-'` sign followed by a nonempty run of digits parses; anything
else raises `ValueError`, modelled as `none`. -/
def pyIntParse (s : List Char) : Option Int :=
  match s with
  | '-' :: rest => if pyIsdigit rest then some (-(digitsToNat rest : Int)) else none
  | '+' :: rest => if pyIsdigit rest then some (digitsToNat rest : Int) else none
  | _ => if pyIsdigit s then some (digitsToNat s : Int) else none

/-! ### The collaborator's output path derivation (lines 184-185, 199-200)

`os.path.splitext(path)` followed by `base + "_encrypted" + ext` (encrypt)
or `base + "_decrypted" + ext` (decrypt).  We embed CPython's
`genericpath._splitext` with `sep = '/'` and `extsep = '.'`: split at the
last dot if it comes after the last separator and the base name up to it is
not entirely dots. -/

/-- Index of the last occurrence of `c`, if any. -/
def rfindIdx (c : Char) : List Char → Option Nat
  | [] => none
  | a :: rest =>
    match rfindIdx c rest with
    | some i => some (i + 1)
    | none => if a == c then some 0 else none

/-- Python `s.rfind(c)`: last index of `c`, `-1` if absent. -/
def rfind (s : List Char) (c : Char) : Int :=
  match rfindIdx c s with
  | some i => (i : Int)
  | none => -1

/-- CPython `genericpath._splitext` for POSIX paths: if the last dot comes
after the last `'/'` and some character strictly between them is not a dot,
split there; otherwise the extension is empty. -/
def splitext (p : List Char) : List Char × List Char :=
  if rfind p '/' < rfind p '.' then
    if (List.range ((rfind p '.').toNat - (rfind p '/' + 1).toNat)).any
        (fun j => !(p.getD ((rfind p '/' + 1).toNat + j) '.' == '.')) then
      (p.take (rfind p '.').toNat, p.drop (rfind p '.').toNat)
    else (p, [])
  else (p, [])

/-- The mode tag inserted by `encrypt_action` (line 185). -/
def suffixEncrypted : List Char := "_encrypted".toList

/-- The mode tag inserted by `decrypt_action` (line 200). -/
def suffixDecrypted : List Char := "_decrypted".toList

/-- `base + "_encrypted" + ext` (lines 184-185). -/
def encrypt_output_path (p : List Char) : List Char :=
  (splitext p).1 ++ suffixEncrypted ++ (splitext p).2

/-- `base + "_decrypted" + ext` (lines 199-200). -/
def decrypt_output_path (p : List Char) : List Char :=
  (splitext p).1 ++ suffixDecrypted ++ (splitext p).2

/-! ## Basic lemmas -/

theorem mem_of_getElem?_some {α : Type} {l : List α} {n : Nat} {a : α}
    (h : l[n]? = some a) : a ∈ l := by
  obtain ⟨hlt, rfl⟩ := List.getElem?_eq_some.mp h
  exact List.getElem_mem hlt

theorem getD_of_lt {l : List Pixel} {n : Nat} (h : n < l.length) :
    l[n]? = some (l.getD n defaultPixel) := by
  rw [List.getD_eq_getElem?_getD, List.getElem?_eq_getElem h]
  rfl

theorem length_swapStep (w y key x : Nat) (row : List Pixel) :
    (swapStep w y key row x).length = row.length := by
  unfold swapStep
  split
  · simp [List.length_set]
  · rfl

theorem length_foldl_swapStep (w y key : Nat) (xs : List Nat) (row : List Pixel) :
    (xs.foldl (swapStep w y key) row).length = row.length := by
  induction xs generalizing row with
  | nil => rfl
  | cons x xs ih => rw [List.foldl_cons, ih, length_swapStep]

theorem length_stage2Row (w y key : Nat) (row : List Pixel) :
    (stage2Row w y key row).length = row.length :=
  length_foldl_swapStep w y key (List.range (w / 2)) row

/-! ## Pointwise characterization of Stage 2 -/

/-- After folding the Stage 2 steps over `range n` (with `n ≤ w / 2`), the
pixel visible at a column `i` is the original pixel of the mirrored column
exactly when the loop has already passed `i`'s pair and the parity test held
there; otherwise the original pixel of column `i` itself. -/
theorem foldl_swapStep_range_getElem? (w y key : Nat) (row : List Pixel)
    (hl : row.length = w) (n : Nat) :
    n ≤ w / 2 → ∀ i, i < w →
      ((List.range n).foldl (swapStep w y key) row)[i]? =
        if min i (w - 1 - i) < n ∧ (min i (w - 1 - i) + y + key) % 2 = 0 then
          row[w - 1 - i]?
        else row[i]? := by
  induction n with
  | zero =>
    intro _ i _
    simp only [List.range_zero, List.foldl_nil]
    rw [if_neg (by omega)]
  | succ n ih =>
    intro hn i hi
    have hn' : n ≤ w / 2 := by omega
    have hw : 2 ≤ w := by omega
    have hlt : n < w - 1 - n := by omega
    have hn2w : w - 1 - n < w := by omega
    have hnw : n < w := by omega
    rw [List.range_succ, List.foldl_append, List.foldl_cons, List.foldl_nil]
    set F := (List.range n).foldl (swapStep w y key) row with hF
    have hFl : F.length = w := by rw [hF, length_foldl_swapStep, hl]
    by_cases hc : (n + y + key) % 2 = 0
    · -- the step at x = n swaps columns n and w - 1 - n
      have hFn : F[n]? = row[n]? := by
        rw [hF, ih hn' n hnw, if_neg (by omega)]
      have hFn2 : F[(w - 1 - n)]? = row[(w - 1 - n)]? := by
        rw [hF, ih hn' (w - 1 - n) hn2w, if_neg (by omega)]
      unfold swapStep
      rw [if_pos hc, List.getElem?_set]
      by_cases hi1 : w - 1 - n = i
      · rw [if_pos hi1, if_pos (by rw [List.length_set, hFl]; omega)]
        rw [← getD_of_lt (show n < F.length by omega), hFn]
        have hwi : w - 1 - i = n := by omega
        have hmini : min i (w - 1 - i) = n := by omega
        rw [if_pos ⟨by omega, by rw [hmini]; exact hc⟩, hwi]
      · rw [if_neg hi1, List.getElem?_set]
        by_cases hi2 : n = i
        · rw [if_pos hi2, if_pos (by rw [hFl]; omega)]
          rw [← getD_of_lt (show w - 1 - n < F.length by omega), hFn2]
          have hwi : w - 1 - i = w - 1 - n := by omega
          have hmini : min i (w - 1 - i) = n := by omega
          rw [if_pos ⟨by omega, by rw [hmini]; exact hc⟩, hwi]
        · rw [if_neg hi2, hF, ih hn' i hi]
          have hiff : (min i (w - 1 - i) < n ∧
                (min i (w - 1 - i) + y + key) % 2 = 0)
              ↔ (min i (w - 1 - i) < n + 1 ∧
                (min i (w - 1 - i) + y + key) % 2 = 0) := by
            constructor
            · rintro ⟨h1, h2⟩; exact ⟨by omega, h2⟩
            · rintro ⟨h1, h2⟩; exact ⟨by omega, h2⟩
          simp only [hiff]
    · -- parity fails at x = n: the step is the identity
      have hstep : swapStep w y key F n = F := by
        unfold swapStep; rw [if_neg hc]
      rw [hstep, hF, ih hn' i hi]
      have hiff : (min i (w - 1 - i) < n ∧
            (min i (w - 1 - i) + y + key) % 2 = 0)
          ↔ (min i (w - 1 - i) < n + 1 ∧
            (min i (w - 1 - i) + y + key) % 2 = 0) := by
        constructor
        · rintro ⟨h1, h2⟩; exact ⟨by omega, h2⟩
        · rintro ⟨h1, h2⟩
          refine ⟨?_, h2⟩
          rcases Nat.lt_succ_iff_lt_or_eq.mp h1 with h | h
          · exact h
          · exfalso
            rw [h] at h2
            exact hc h2
      simp only [hiff]

/-- Stage 2 on a full row reads column `i` from `swapTarget w key y i`. -/
theorem stage2Row_getElem? (w y key : Nat) (row : List Pixel)
    (hl : row.length = w) (i : Nat) (hi : i < w) :
    (stage2Row w y key row)[i]? = row[(swapTarget w key y i)]? := by
  unfold stage2Row swapTarget
  rw [foldl_swapStep_range_getElem? w y key row hl (w / 2) (Nat.le_refl _) i hi]
  by_cases hc : min i (w - 1 - i) < w / 2 ∧
      (min i (w - 1 - i) + y + key) % 2 = 0
  · rw [if_pos hc, if_pos hc]
  · rw [if_neg hc, if_neg hc]

theorem swapTarget_lt (w key y i : Nat) (hi : i < w) :
    swapTarget w key y i < w := by
  unfold swapTarget
  split <;> omega

theorem swapTarget_invol (w key y i : Nat) (hi : i < w) :
    swapTarget w key y (swapTarget w key y i) = i := by
  unfold swapTarget
  by_cases hc : min i (w - 1 - i) < w / 2 ∧
      (min i (w - 1 - i) + y + key) % 2 = 0
  · rw [if_pos hc]
    have h1 : w - 1 - (w - 1 - i) = i := by omega
    have h2 : min (w - 1 - i) (w - 1 - (w - 1 - i)) = min i (w - 1 - i) := by
      omega
    rw [h2, if_pos hc, h1]
  · rw [if_neg hc, if_neg hc]

theorem stage2Row_invol (w y key : Nat) (row : List Pixel)
    (hl : row.length = w) :
    stage2Row w y key (stage2Row w y key row) = row := by
  apply List.ext_getElem?
  intro i
  by_cases hi : i < w
  · rw [stage2Row_getElem? w y key _ (by rw [length_stage2Row, hl]) i hi,
      stage2Row_getElem? w y key row hl _ (swapTarget_lt w key y i hi),
      swapTarget_invol w key y i hi]
  · rw [List.getElem?_eq_none (by rw [length_stage2Row, length_stage2Row, hl]; omega),
      List.getElem?_eq_none (by omega)]

theorem stage2Row_map (w y key : Nat) (row : List Pixel)
    (hl : row.length = w) (f : Pixel → Pixel) :
    stage2Row w y key (row.map f) = (stage2Row w y key row).map f := by
  apply List.ext_getElem?
  intro i
  by_cases hi : i < w
  · rw [stage2Row_getElem? w y key _ (by rw [List.length_map, hl]) i hi,
      List.getElem?_map, List.getElem?_map,
      stage2Row_getElem? w y key row hl i hi]
  · rw [List.getElem?_eq_none
        (by rw [length_stage2Row, List.length_map, hl]; omega),
      List.getElem?_eq_none
        (by rw [List.length_map, length_stage2Row, hl]; omega)]

/-! ## Rows-level lemmas -/

theorem length_stage2Rows (w key : Nat) (y0 : Nat) (rows : List (List Pixel)) :
    (stage2Rows w key y0 rows).length = rows.length := by
  induction rows generalizing y0 with
  | nil => rfl
  | cons row rest ih => simp [stage2Rows, ih]

theorem stage2Rows_getElem? (w key : Nat) (rows : List (List Pixel))
    (y0 j : Nat) :
    (stage2Rows w key y0 rows)[j]? =
      (rows[j]?).map (stage2Row w (y0 + j) key) := by
  induction rows generalizing y0 j with
  | nil => simp [stage2Rows]
  | cons row rest ih =>
    cases j with
    | zero => simp [stage2Rows]
    | succ j =>
      have : y0 + (j + 1) = (y0 + 1) + j := by omega
      simp only [stage2Rows, List.getElem?_cons_succ, ih (y0 + 1) j, this]

theorem stage2Rows_invol (w key : Nat) (y0 : Nat) (rows : List (List Pixel))
    (hwf : WF w rows) :
    stage2Rows w key y0 (stage2Rows w key y0 rows) = rows := by
  induction rows generalizing y0 with
  | nil => rfl
  | cons row rest ih =>
    simp only [stage2Rows]
    rw [stage2Row_invol w y0 key row (hwf row (by simp)),
      ih (y0 + 1) (fun r hr => hwf r (by simp [hr]))]

theorem pxXor_invol (key : Nat) (p : Pixel) : pxXor key (pxXor key p) = p := by
  obtain ⟨a, b, c⟩ := p
  simp [pxXor, Nat.xor_assoc]

theorem map_map_pxXor (key : Nat) (row : List Pixel) :
    (row.map (pxXor key)).map (pxXor key) = row := by
  induction row with
  | nil => rfl
  | cons p rest ih => simp only [List.map_cons, pxXor_invol, ih]

theorem stage1_stage1 (key : Nat) (rows : List (List Pixel)) :
    stage1 key (stage1 key rows) = rows := by
  induction rows with
  | nil => rfl
  | cons row rest ih =>
    show (row.map (pxXor key)).map (pxXor key) ::
        stage1 key (stage1 key rest) = row :: rest
    rw [map_map_pxXor, ih]

theorem WF_stage1 (w key : Nat) (rows : List (List Pixel)) (hwf : WF w rows) :
    WF w (stage1 key rows) := by
  intro row hrow
  obtain ⟨r, hr, rfl⟩ := List.mem_map.mp hrow
  rw [List.length_map]
  exact hwf r hr

theorem WF_stage2Rows (w key y0 : Nat) (rows : List (List Pixel))
    (hwf : WF w rows) : WF w (stage2Rows w key y0 rows) := by
  induction rows generalizing y0 with
  | nil => intro r hr; cases hr
  | cons row rest ih =>
    intro r hr
    rcases List.mem_cons.mp hr with rfl | hr'
    · rw [length_stage2Row]
      exact hwf row (by simp)
    · exact ih (y0 + 1) (fun r' h' => hwf r' (by simp [h'])) r hr'

theorem stage1_stage2Rows_comm (w key key2 y0 : Nat)
    (rows : List (List Pixel)) (hwf : WF w rows) :
    stage1 key2 (stage2Rows w key y0 rows) =
      stage2Rows w key y0 (stage1 key2 rows) := by
  induction rows generalizing y0 with
  | nil => rfl
  | cons row rest ih =>
    show (stage2Row w y0 key row).map (pxXor key2) ::
        stage1 key2 (stage2Rows w key (y0 + 1) rest)
      = stage2Row w y0 key (row.map (pxXor key2)) ::
        stage2Rows w key (y0 + 1) (stage1 key2 rest)
    rw [← stage2Row_map w y0 key row (hwf row (by simp)) (pxXor key2),
      ih (y0 + 1) (fun r h => hwf r (by simp [h]))]

theorem mapLength_stage1 (key : Nat) (rows : List (List Pixel)) :
    (stage1 key rows).map List.length = rows.map List.length := by
  induction rows with
  | nil => rfl
  | cons row rest ih =>
    show (row.map (pxXor key)).length :: (stage1 key rest).map List.length
        = row.length :: rest.map List.length
    rw [List.length_map, ih]

theorem mapLength_stage2Rows (w key y0 : Nat) (rows : List (List Pixel)) :
    (stage2Rows w key y0 rows).map List.length = rows.map List.length := by
  induction rows generalizing y0 with
  | nil => rfl
  | cons row rest ih =>
    show (stage2Row w y0 key row).length ::
        (stage2Rows w key (y0 + 1) rest).map List.length
      = row.length :: rest.map List.length
    rw [length_stage2Row, ih (y0 + 1)]

/-- The full transform, pointwise: the pixel of the output at column `i` of
row `y` is the pixel of the input at column `swapTarget w key y i` of the
same row, with every channel XORed with the key byte.  The reading position
depends only on the geometry and the key. -/
theorem transform_getPx (w : Nat) (k : Int) (rows : List (List Pixel))
    (hwf : WF w rows) (y i : Nat) (hi : i < w) :
    getPx (transform_image w k rows) i y =
      Option.map (pxXor (keyByte k))
        (getPx rows (swapTarget w (keyByte k) y i) y) := by
  unfold transform_image getPx
  rw [stage2Rows_getElem? w (keyByte k) (stage1 (keyByte k) rows) 0 y]
  have h0 : (0 : Nat) + y = y := by omega
  rw [h0]
  unfold stage1
  rw [List.getElem?_map]
  cases hrow : rows[y]? with
  | none => simp
  | some row =>
    have hlen : row.length = w := hwf row (mem_of_getElem?_some hrow)
    simp only [Option.map_some', Option.some_bind]
    rw [stage2Row_map w y (keyByte k) row hlen (pxXor (keyByte k)),
      List.getElem?_map,
      stage2Row_getElem? w y (keyByte k) row hlen i hi]

theorem pxXor_zero (p : Pixel) : pxXor 0 p = p := by
  obtain ⟨a, b, c⟩ := p
  simp [pxXor]

theorem optionMap_pxXor_zero (o : Option Pixel) : o.map (pxXor 0) = o := by
  cases o with
  | none => rfl
  | some p => rw [Option.map_some', pxXor_zero]

theorem keyByte_lt (k : Int) : keyByte k < 256 := by
  unfold keyByte
  omega

theorem xor_lt_256 (u v : Nat) (hu : u < 256) (hv : v < 256) :
    u ^^^ v < 256 := by
  have h256 : (256 : Nat) = 2 ^ 8 := by norm_num
  rw [h256] at hu hv ⊢
  exact Nat.xor_lt_two_pow hu hv

theorem pxXor_inRange (key : Nat) (hkey : key < 256) (p : Pixel)
    (hp : InRange p) : InRange (pxXor key p) := by
  obtain ⟨a, b, c⟩ := p
  obtain ⟨h1, h2, h3⟩ := hp
  exact ⟨xor_lt_256 a key h1 hkey, xor_lt_256 b key h2 hkey,
    xor_lt_256 c key h3 hkey⟩

theorem getD_mem_or (row : List Pixel) (n : Nat) :
    row.getD n defaultPixel ∈ row ∨ row.getD n defaultPixel = defaultPixel := by
  rw [List.getD_eq_getElem?_getD]
  cases hr : row[n]? with
  | none => exact Or.inr rfl
  | some v => exact Or.inl (mem_of_getElem?_some hr)

theorem mem_swapStep (w y key x : Nat) (row : List Pixel) (q : Pixel)
    (hq : q ∈ swapStep w y key row x) : q ∈ row ∨ q = defaultPixel := by
  unfold swapStep at hq
  split at hq
  · rcases List.mem_or_eq_of_mem_set hq with hq' | rfl
    · rcases List.mem_or_eq_of_mem_set hq' with hq'' | rfl
      · exact Or.inl hq''
      · exact getD_mem_or row (w - 1 - x)
    · exact getD_mem_or row x
  · exact Or.inl hq

theorem mem_foldl_swapStep (w y key : Nat) (xs : List Nat)
    (row : List Pixel) (q : Pixel)
    (hq : q ∈ xs.foldl (swapStep w y key) row) :
    q ∈ row ∨ q = defaultPixel := by
  induction xs generalizing row with
  | nil => exact Or.inl hq
  | cons x xs ih =>
    rw [List.foldl_cons] at hq
    rcases ih (swapStep w y key row x) hq with h | h
    · exact mem_swapStep w y key x row q h
    · exact Or.inr h

theorem mem_stage2Rows (w key y0 : Nat) (rows : List (List Pixel))
    (r : List Pixel) (hr : r ∈ stage2Rows w key y0 rows) :
    ∃ y r0, r0 ∈ rows ∧ r = stage2Row w y key r0 := by
  induction rows generalizing y0 with
  | nil => cases hr
  | cons row rest ih =>
    rcases List.mem_cons.mp hr with rfl | hr'
    · exact ⟨y0, row, by simp, rfl⟩
    · obtain ⟨y, r0, hr0, heq⟩ := ih (y0 + 1) hr'
      exact ⟨y, r0, by simp [hr0], heq⟩

theorem splitext_append (p : List Char) :
    (splitext p).1 ++ (splitext p).2 = p := by
  unfold splitext
  split
  · split
    · exact List.take_append_drop _ p
    · exact List.append_nil p
  · exact List.append_nil p

/-! ## Claims -/

/-- C1: the transform is an involution — for every buffer of width `w` (any
height) and every integer key, applying `transform_image` twice with the same
key restores the buffer pixel for pixel. -/
theorem transform_image_involution (w : Nat) (k : Int)
    (rows : List (List Pixel)) (hwf : WF w rows) :
    transform_image w k (transform_image w k rows) = rows := by
  unfold transform_image
  rw [stage1_stage2Rows_comm w (keyByte k) (keyByte k) 0
      (stage1 (keyByte k) rows) (WF_stage1 w (keyByte k) rows hwf),
    stage1_stage1,
    stage2Rows_invol w (keyByte k) 0 rows hwf]

theorem transform_image_involution_witness :
    WF 3 [[(1, 2, 3), (4, 5, 6), (7, 8, 9)], [(9, 9, 9), (0, 0, 0), (250, 251, 252)]] ∧
    transform_image 3 (-7) (transform_image 3 (-7)
        [[(1, 2, 3), (4, 5, 6), (7, 8, 9)], [(9, 9, 9), (0, 0, 0), (250, 251, 252)]]) =
      [[(1, 2, 3), (4, 5, 6), (7, 8, 9)], [(9, 9, 9), (0, 0, 0), (250, 251, 252)]] :=
  ⟨by decide, transform_image_involution 3 (-7)
    [[(1, 2, 3), (4, 5, 6), (7, 8, 9)], [(9, 9, 9), (0, 0, 0), (250, 251, 252)]]
    (by decide)⟩

/-- C2: key normalization — the transform's output is unchanged when the key
moves by `±256`, and more generally depends on the key only through its
residue modulo 256. -/
theorem transform_image_key_normalization (w : Nat) (k : Int)
    (rows : List (List Pixel)) :
    transform_image w k rows = transform_image w (k + 256) rows ∧
    transform_image w k rows = transform_image w (k - 256) rows ∧
    ∀ k' : Int, k % 256 = k' % 256 →
      transform_image w k rows = transform_image w k' rows := by
  have hcong : ∀ k1 k2 : Int, k1 % 256 = k2 % 256 →
      transform_image w k1 rows = transform_image w k2 rows := by
    intro k1 k2 h
    unfold transform_image keyByte
    rw [h]
  exact ⟨hcong k (k + 256) (by omega), hcong k (k - 256) (by omega),
    fun k' h => hcong k k' h⟩

theorem transform_image_key_normalization_witness :
    (5 : Int) % 256 = (-251 : Int) % 256 ∧
    transform_image 2 5 [[(1, 2, 3), (4, 5, 6)]] =
      transform_image 2 (-251) [[(1, 2, 3), (4, 5, 6)]] :=
  ⟨by decide,
    (transform_image_key_normalization 2 5 [[(1, 2, 3), (4, 5, 6)]]).2.2
      (-251) (by decide)⟩

/-- C3: identity key — with key 0 the transform changes no color value, but
still swaps column `x` with column `w - 1 - x` in row `y` exactly when
`x < w / 2` and `(x + y) % 2 = 0`; any such pair whose parity test fails is
left in place. -/
theorem transform_image_key_zero (w : Nat) (rows : List (List Pixel))
    (hwf : WF w rows) (y x : Nat) (hx : x < w / 2) :
    ((x + y) % 2 = 0 →
      getPx (transform_image w 0 rows) x y = getPx rows (w - 1 - x) y ∧
      getPx (transform_image w 0 rows) (w - 1 - x) y = getPx rows x y) ∧
    ((x + y) % 2 ≠ 0 →
      getPx (transform_image w 0 rows) x y = getPx rows x y ∧
      getPx (transform_image w 0 rows) (w - 1 - x) y =
        getPx rows (w - 1 - x) y) := by
  have hxw : x < w := by omega
  have hx2w : w - 1 - x < w := by omega
  have hk : keyByte 0 = 0 := by decide
  have hmin1 : min x (w - 1 - x) = x := by omega
  have hmin2 : min (w - 1 - x) (w - 1 - (w - 1 - x)) = x := by omega
  have hxx : w - 1 - (w - 1 - x) = x := by omega
  constructor
  · intro hpar
    have ht1 : swapTarget w 0 y x = w - 1 - x := by
      unfold swapTarget
      rw [hmin1, if_pos ⟨hx, by omega⟩]
    have ht2 : swapTarget w 0 y (w - 1 - x) = x := by
      unfold swapTarget
      rw [hmin2, if_pos ⟨hx, by omega⟩, hxx]
    constructor
    · rw [transform_getPx w 0 rows hwf y x hxw, hk, ht1,
        optionMap_pxXor_zero]
    · rw [transform_getPx w 0 rows hwf y (w - 1 - x) hx2w, hk, ht2,
        optionMap_pxXor_zero]
  · intro hpar
    have ht1 : swapTarget w 0 y x = x := by
      unfold swapTarget
      rw [hmin1, if_neg (by omega)]
    have ht2 : swapTarget w 0 y (w - 1 - x) = w - 1 - x := by
      unfold swapTarget
      rw [hmin2, if_neg (by omega)]
    constructor
    · rw [transform_getPx w 0 rows hwf y x hxw, hk, ht1,
        optionMap_pxXor_zero]
    · rw [transform_getPx w 0 rows hwf y (w - 1 - x) hx2w, hk, ht2,
        optionMap_pxXor_zero]

theorem transform_image_key_zero_witness :
    WF 2 [[(1, 2, 3), (4, 5, 6)]] ∧ 0 < 2 / 2 ∧ (0 + 0) % 2 = 0 ∧
    (getPx (transform_image 2 0 [[(1, 2, 3), (4, 5, 6)]]) 0 0 =
        getPx [[(1, 2, 3), (4, 5, 6)]] (2 - 1 - 0) 0 ∧
      getPx (transform_image 2 0 [[(1, 2, 3), (4, 5, 6)]]) (2 - 1 - 0) 0 =
        getPx [[(1, 2, 3), (4, 5, 6)]] 0 0) :=
  ⟨by decide, by decide, by decide,
    (transform_image_key_zero 2 [[(1, 2, 3), (4, 5, 6)]] (by decide) 0 0
      (by decide)).1 (by decide)⟩

/-- C4: odd-width midpoint invariance — for odd `w` the middle column
`w / 2` is never moved by Stage 2: after the transform it holds its original
pixel with each channel XORed with the key byte. -/
theorem transform_image_odd_width_midpoint (w : Nat) (k : Int)
    (rows : List (List Pixel)) (hodd : w % 2 = 1) (hwf : WF w rows)
    (y : Nat) :
    getPx (transform_image w k rows) (w / 2) y =
      Option.map (pxXor (keyByte k)) (getPx rows (w / 2) y) := by
  have hi : w / 2 < w := by omega
  have ht : swapTarget w (keyByte k) y (w / 2) = w / 2 := by
    unfold swapTarget
    rw [if_neg (by omega)]
  rw [transform_getPx w k rows hwf y (w / 2) hi, ht]

theorem transform_image_odd_width_midpoint_witness :
    3 % 2 = 1 ∧ WF 3 [[(1, 2, 3), (4, 5, 6), (7, 8, 9)]] ∧
    getPx (transform_image 3 5 [[(1, 2, 3), (4, 5, 6), (7, 8, 9)]]) (3 / 2) 0 =
      Option.map (pxXor (keyByte 5))
        (getPx [[(1, 2, 3), (4, 5, 6), (7, 8, 9)]] (3 / 2) 0) :=
  ⟨by decide, by decide,
    transform_image_odd_width_midpoint 3 5 [[(1, 2, 3), (4, 5, 6), (7, 8, 9)]]
      (by decide) (by decide) 0⟩

/-- C5: shape preservation — the transform keeps the number of rows, keeps
every row at width `w`, and keeps each row's length individually (hence the
pixel count). -/
theorem transform_image_shape_preservation (w : Nat) (k : Int)
    (rows : List (List Pixel)) (hwf : WF w rows) :
    (transform_image w k rows).length = rows.length ∧
    WF w (transform_image w k rows) ∧
    (transform_image w k rows).map List.length = rows.map List.length := by
  refine ⟨?_, ?_, ?_⟩
  · unfold transform_image
    rw [length_stage2Rows]
    unfold stage1
    exact List.length_map rows _
  · exact WF_stage2Rows w (keyByte k) 0 _ (WF_stage1 w (keyByte k) rows hwf)
  · unfold transform_image
    rw [mapLength_stage2Rows, mapLength_stage1]

theorem transform_image_shape_preservation_witness :
    WF 2 [[(1, 2, 3), (4, 5, 6)], [(7, 8, 9), (10, 11, 12)]] ∧
    ((transform_image 2 9 [[(1, 2, 3), (4, 5, 6)], [(7, 8, 9), (10, 11, 12)]]).length =
        [[(1, 2, 3), (4, 5, 6)], [(7, 8, 9), (10, 11, 12)]].length ∧
      WF 2 (transform_image 2 9 [[(1, 2, 3), (4, 5, 6)], [(7, 8, 9), (10, 11, 12)]]) ∧
      (transform_image 2 9 [[(1, 2, 3), (4, 5, 6)], [(7, 8, 9), (10, 11, 12)]]).map
          List.length =
        [[(1, 2, 3), (4, 5, 6)], [(7, 8, 9), (10, 11, 12)]].map List.length) :=
  ⟨by decide,
    transform_image_shape_preservation 2 9
      [[(1, 2, 3), (4, 5, 6)], [(7, 8, 9), (10, 11, 12)]] (by decide)⟩

/-- C6: concrete scenario — the 2x1 image `[(10,20,30), (40,50,60)]` under
key 5 becomes `[(15,17,27), (45,55,57)]`, and transforming again under key 5
restores the original. -/
theorem transform_image_concrete_scenario :
    transform_image 2 5 [[(10, 20, 30), (40, 50, 60)]] =
      [[(15, 17, 27), (45, 55, 57)]] ∧
    transform_image 2 5 (transform_image 2 5 [[(10, 20, 30), (40, 50, 60)]]) =
      [[(10, 20, 30), (40, 50, 60)]] :=
  ⟨by decide, by decide⟩

/-- C7: Stage 2's swap decision is data-independent — for any two buffers of
the same width, the transform reads column `i` of row `y` from the same
source column `swapTarget w key y i`, a function of the coordinates, the
width and the key byte only, never of the pixel values. -/
theorem transform_image_swap_data_independent (w : Nat) (k : Int)
    (A B : List (List Pixel)) (hA : WF w A) (hB : WF w B) (y i : Nat)
    (hi : i < w) :
    getPx (transform_image w k A) i y =
      Option.map (pxXor (keyByte k))
        (getPx A (swapTarget w (keyByte k) y i) y) ∧
    getPx (transform_image w k B) i y =
      Option.map (pxXor (keyByte k))
        (getPx B (swapTarget w (keyByte k) y i) y) :=
  ⟨transform_getPx w k A hA y i hi, transform_getPx w k B hB y i hi⟩

theorem transform_image_swap_data_independent_witness :
    WF 2 [[(1, 2, 3), (4, 5, 6)]] ∧ WF 2 [[(200, 201, 202), (7, 7, 7)]] ∧
    0 < 2 ∧
    (getPx (transform_image 2 3 [[(1, 2, 3), (4, 5, 6)]]) 0 0 =
        Option.map (pxXor (keyByte 3))
          (getPx [[(1, 2, 3), (4, 5, 6)]] (swapTarget 2 (keyByte 3) 0 0) 0) ∧
      getPx (transform_image 2 3 [[(200, 201, 202), (7, 7, 7)]]) 0 0 =
        Option.map (pxXor (keyByte 3))
          (getPx [[(200, 201, 202), (7, 7, 7)]]
            (swapTarget 2 (keyByte 3) 0 0) 0)) :=
  ⟨by decide, by decide, by decide,
    transform_image_swap_data_independent 2 3 [[(1, 2, 3), (4, 5, 6)]]
      [[(200, 201, 202), (7, 7, 7)]] (by decide) (by decide) 0 0 (by decide)⟩

/-- C8 (code evidence): the key string `"--5"` passes the validation's digit
check `key_str.lstrip("-").isdigit()` — `lstrip` removes every leading dash —
yet `int("--5")` raises `ValueError` (modelled as `none`), so the claim that
every string passing the check parses as a signed integer fails on the code. -/
theorem validate_key_check_passes_but_int_fails :
    keyCheckPasses ('-' :: '-' :: '5' :: []) = true ∧
    pyIntParse ('-' :: '-' :: '5' :: []) = none :=
  ⟨by decide, by decide⟩

/-- C9: output path derivation — both actions insert their mode suffix
between the base and the extension of `os.path.splitext`, the base and
extension recombine to the input path, the extension is kept as a suffix of
the output, and the output path never equals the input path. -/
theorem output_path_derivation (p : List Char) :
    encrypt_output_path p =
      (splitext p).1 ++ suffixEncrypted ++ (splitext p).2 ∧
    decrypt_output_path p =
      (splitext p).1 ++ suffixDecrypted ++ (splitext p).2 ∧
    (splitext p).1 ++ (splitext p).2 = p ∧
    (splitext p).2 <:+ encrypt_output_path p ∧
    (splitext p).2 <:+ decrypt_output_path p ∧
    encrypt_output_path p ≠ p ∧
    decrypt_output_path p ≠ p := by
  have hsplit := splitext_append p
  have hne : ∀ s : List Char, s.length = 10 →
      (splitext p).1 ++ s ++ (splitext p).2 ≠ p := by
    intro s hs h
    have hlen := congrArg List.length h
    rw [List.length_append, List.length_append] at hlen
    have hp := congrArg List.length hsplit
    rw [List.length_append] at hp
    omega
  refine ⟨rfl, rfl, hsplit, ?_, ?_, ?_, ?_⟩
  · unfold encrypt_output_path
    exact ⟨(splitext p).1 ++ suffixEncrypted, rfl⟩
  · unfold decrypt_output_path
    exact ⟨(splitext p).1 ++ suffixDecrypted, rfl⟩
  · unfold encrypt_output_path
    exact hne suffixEncrypted (by decide)
  · unfold decrypt_output_path
    exact hne suffixDecrypted (by decide)

/-- C10: channel-range closure — if every channel of the input buffer is a
byte, every channel of the transformed buffer is a byte: the key byte is
below 256 and XOR cannot leave `[0, 255]`. -/
theorem transform_image_channel_range (w : Nat) (k : Int)
    (rows : List (List Pixel))
    (h : ∀ row ∈ rows, ∀ p ∈ row, InRange p) :
    ∀ row ∈ transform_image w k rows, ∀ p ∈ row, InRange p := by
  intro row hrow p hp
  unfold transform_image at hrow
  obtain ⟨y, r0, hr0, rfl⟩ := mem_stage2Rows w (keyByte k) 0 _ row hrow
  unfold stage1 at hr0
  obtain ⟨r1, hr1, rfl⟩ := List.mem_map.mp hr0
  unfold stage2Row at hp
  rcases mem_foldl_swapStep w y (keyByte k) _ _ p hp with hmem | rfl
  · obtain ⟨p0, hp0, rfl⟩ := List.mem_map.mp hmem
    exact pxXor_inRange (keyByte k) (keyByte_lt k) p0 (h r1 hr1 p0 hp0)
  · decide

theorem transform_image_channel_range_witness :
    (∀ row ∈ [[(255, 0, 7), (128, 30, 62)]], ∀ p ∈ row, InRange p) ∧
    (∀ row ∈ transform_image 2 1000 [[(255, 0, 7), (128, 30, 62)]],
      ∀ p ∈ row, InRange p) :=
  ⟨by decide,
    transform_image_channel_range 2 1000 [[(255, 0, 7), (128, 30, 62)]]
      (by decide)⟩

end ImageEncryption
